import Mathlib

/-!
Linux_Utilities: sysfs GPIO and PWM interfaces.

A shallow embedding of `gpio_interface.h` and `pwm_interface.h`.

* The file system the classes talk to is an explicit state, `FileSystem`, threaded
  through every member function that opens a file.
* A finite `double` is the rational it denotes. Every arithmetic operation of
  `DegreesToPWM` is rounded to binary64 (round to nearest, ties to even) and is `none`
  when it overflows; the conversion `double -> int -> size_t` is modelled with its
  range check and wrap.
* `std::stoi` may throw; functions that call it return `Except Exception _`.
* Diagnostics printed on `std::cerr` are not part of the state.
-/

/-! ## C++ library pieces used by the two headers -/

/-- The largest value of `int`. -/
def INT_MAX : Int := 2147483647

/-- The smallest value of `int`. -/
def INT_MIN : Int := -2147483648

/-- The largest value of `size_t` (64 bit). -/
def SIZE_MAX : Nat := 18446744073709551615

/-- Exceptions thrown by `std::stoi`. -/
inductive Exception where
  | invalid_argument
  | out_of_range
  deriving DecidableEq, Repr

/-- The character class `isspace` of the "C" locale. -/
def isspace (c : Char) : Bool :=
  c.toNat == 32 || (9 ≤ c.toNat && c.toNat ≤ 13)

/-- The character class `isdigit`. -/
def isdigit (c : Char) : Bool :=
  48 ≤ c.toNat && c.toNat ≤ 57

/-- One decimal digit as a character. -/
def digitChar (d : Nat) : Char :=
  match d with
  | 0 => '0'
  | 1 => '1'
  | 2 => '2'
  | 3 => '3'
  | 4 => '4'
  | 5 => '5'
  | 6 => '6'
  | 7 => '7'
  | 8 => '8'
  | _ => '9'

/-- Decimal digits of `n`, most significant first; `fuel` bounds the number of digits. -/
def decimalDigits : Nat → Nat → List Char
  | 0, _ => []
  | fuel + 1, n =>
    if n < 10 then [digitChar n]
    else decimalDigits fuel (n / 10) ++ [digitChar (n % 10)]

/-- Decimal text of an unsigned value, as `operator<<` and `std::to_string` print it. -/
def natToChars (n : Nat) : List Char :=
  decimalDigits (n + 1) n

/-- Decimal text of a signed value, as `operator<<` and `std::to_string` print it. -/
def intToChars (v : Int) : List Char :=
  if v < 0 then '-' :: natToChars v.natAbs else natToChars v.natAbs

/-- Model of `std::to_string(int)`; `file << int` prints the same text. -/
def to_string (v : Int) : String :=
  String.mk (intToChars v)

/-- Model of `file << size_t`. -/
def to_string_size_t (n : Nat) : String :=
  String.mk (natToChars n)

/-- Model of `std::to_string(bool)`: the argument is promoted to `int`. -/
def to_string_bool (b : Bool) : String :=
  to_string (if b then 1 else 0)

/-- Value of a run of decimal digits. -/
def digitsValue (cs : List Char) : Nat :=
  cs.foldl (fun acc c => acc * 10 + (c.toNat - 48)) 0

/-- An optional sign followed by at least one digit, read from the front of `cs`:
the subject sequence of `strtol` and of `num_get` in base 10. -/
def parseInt (cs : List Char) : Option Int :=
  match cs with
  | [] => none
  | c :: rest =>
    if c = '-' then
      (if rest.takeWhile isdigit = [] then none
       else some (-(digitsValue (rest.takeWhile isdigit) : Int)))
    else if c = '+' then
      (if rest.takeWhile isdigit = [] then none
       else some (digitsValue (rest.takeWhile isdigit) : Int))
    else
      (if cs.takeWhile isdigit = [] then none
       else some (digitsValue (cs.takeWhile isdigit) : Int))

/-- Model of `std::stoi(str)`: leading white space is skipped, then `strtol` in base 10;
`invalid_argument` when no number is there, `out_of_range` when it does not fit `int`. -/
def stoi (str : String) : Except Exception Int :=
  match parseInt (str.data.dropWhile isspace) with
  | none => Except.error Exception.invalid_argument
  | some v =>
    if INT_MIN ≤ v ∧ v ≤ INT_MAX then Except.ok v
    else Except.error Exception.out_of_range

/-- Conversion of an `int` to `size_t`: the value modulo `2^64`. -/
def intToSizeT (v : Int) : Nat :=
  (v % 18446744073709551616).toNat

/-- Model of `std::getline(file, line)` on a freshly opened stream holding `text`:
`none` when nothing can be extracted, else the characters before the first newline. -/
def getline (text : String) : Option String :=
  if text.data = [] then none
  else some (String.mk (text.data.takeWhile (fun c => c ≠ Char.ofNat 10)))

/-- Model of `file >> str` into an empty `std::string`: white space is skipped and
the characters up to the next white space are taken; the string stays empty when
nothing is left. -/
def extractToken (text : String) : String :=
  String.mk ((text.data.dropWhile isspace).takeWhile (fun c => !isspace c))

/-- Model of `file >> value` for `int value`: at end of input the sentry fails and
`value` keeps its old content; a failed parse stores 0; a number outside `int`
stores the nearest limit. -/
def extractInt (text : String) (value : Int) : Int :=
  match text.data.dropWhile isspace with
  | [] => value
  | c :: cs =>
    match parseInt (c :: cs) with
    | none => 0
    | some v => if v < INT_MIN then INT_MIN else if INT_MAX < v then INT_MAX else v

/-! ## Binary64 arithmetic -/

/-- Round to the nearest integer, ties to the even one. -/
def roundNearestEven (x : ℚ) : Int :=
  if x - ⌊x⌋ < 1 / 2 then ⌊x⌋
  else if 1 / 2 < x - ⌊x⌋ then ⌊x⌋ + 1
  else if ⌊x⌋ % 2 = 0 then ⌊x⌋ else ⌊x⌋ + 1

/-- Exponent of the binade of `z`: the `k` with `2 ^ k <= |z| < 2 ^ (k + 1)`, held at
-1022 for subnormal values. -/
def binade (z : ℚ) : Int :=
  max (Int.log 2 |z|) (-1022)

/-- The rational `z` rounded to a multiple of the quantum of its binade, `2 ^ (k - 52)`:
a significand of 53 bits, round to nearest, ties to even. -/
def roundToQuantum (z : ℚ) : ℚ :=
  (roundNearestEven (z / 2 ^ (binade z - 52)) : ℚ) * 2 ^ (binade z - 52)

/-- The binary64 value of the exact result `z` of an operation: `none` when the rounded
result reaches `2 ^ 1024` and the operation overflows to an infinity. -/
def roundBinary64 (z : ℚ) : Option ℚ :=
  if |roundToQuantum z| < 2 ^ (1024 : Int) then some (roundToQuantum z) else none

/-- A rational is a finite `double` when rounding leaves it as it is. -/
def isBinary64 (z : ℚ) : Prop :=
  roundBinary64 z = some z

/-- Model of `a + b` on `double`. -/
def fadd (a b : ℚ) : Option ℚ :=
  roundBinary64 (a + b)

/-- Model of `a * b` on `double`. -/
def fmul (a b : ℚ) : Option ℚ :=
  roundBinary64 (a * b)

/-- Model of `a / b` on `double`, for a divisor other than zero. -/
def fdiv (a b : ℚ) : Option ℚ :=
  roundBinary64 (a / b)

/-- The `double` the literal `-59.7` denotes: the binary64 value nearest to -59.7. -/
def minus59_7 : ℚ :=
  -8402028054813082 / 140737488355328

/-! ## The file system -/

/-- The attribute files seen through `std::ifstream` and `std::ofstream`.
`files p` is `none` when opening `p` for input fails, else the text read from it
(a directory opens and yields nothing). `writable p` tells whether opening `p` for
output succeeds. `writes` records, in order, every output stream that was opened
and closed: its path and the text put into it. -/
structure FileSystem where
  files : String → Option String
  writable : String → Bool
  writes : List (String × String)

/-- An open `std::ofstream`: its path and the text written so far. -/
structure ofstream where
  path : String
  buffer : String

namespace FileSystem

/-- Model of `std::ifstream file(path)`: the text to read, `none` when `!file`. -/
def openIn (fs : FileSystem) (path : String) : Option String :=
  fs.files path

/-- Model of `std::ofstream file(path)`: `none` when `!file`. -/
def openOut (fs : FileSystem) (path : String) : Option ofstream :=
  if fs.writable path then some ⟨path, ""⟩ else none

/-- Closing (or destroying) an output stream: the file, truncated when it was
opened, now holds what was written. -/
def close (fs : FileSystem) (file : ofstream) : FileSystem :=
  { fs with
    files := Function.update fs.files file.path (some file.buffer)
    writes := fs.writes ++ [(file.path, file.buffer)] }

end FileSystem

/-- Model of `file << text`. -/
def ofstream.put (file : ofstream) (text : String) : ofstream :=
  { file with buffer := file.buffer ++ text }

/-! ## `pwm_interface.h` -/

/-- Status returns of `PWM_Interface`. -/
inductive PWMStatus where
  | Success
  | Error
  | NotExported
  | InvalidInput
  deriving DecidableEq, Repr

/-- Polarity types of a PWM. -/
inductive PWMPolarity where
  | Normal
  | Inverted
  | Unknown
  deriving DecidableEq, Repr

/-- The data members of `class PWM_Interface`. -/
structure PWM_Interface where
  m_pwmPath : String
  m_pwmChannel : Int
  m_maxDegrees : ℚ
  m_minDegrees : ℚ

namespace PWM_Interface

/-- The constructor `PWM_Interface(pwmPath, pwmChannel, pwmMinDegrees, pwmMaxDegrees)`;
the last three arguments default to 0 in the source. -/
def ctor (pwmPath : String) (pwmChannel : Int) (pwmMinDegrees pwmMaxDegrees : ℚ) :
    PWM_Interface :=
  { m_pwmPath := pwmPath, m_pwmChannel := pwmChannel,
    m_minDegrees := pwmMinDegrees, m_maxDegrees := pwmMaxDegrees }

/-- Source: `IsExported()`. The first line of `<path>/export` is compared with the
channel number. -/
def IsExported (p : PWM_Interface) (fs : FileSystem) : PWMStatus :=
  match fs.openIn (p.m_pwmPath ++ "/export") with
  | none => PWMStatus.NotExported
  | some text =>
    match getline text with
    | none => PWMStatus.NotExported
    | some line =>
      if line = to_string p.m_pwmChannel then PWMStatus.Success
      else PWMStatus.NotExported

/-- Source: `ExportPWM()`. -/
def ExportPWM (p : PWM_Interface) (fs : FileSystem) : PWMStatus × FileSystem :=
  if IsExported p fs = PWMStatus.Success then (PWMStatus.Success, fs)
  else
    match fs.openOut (p.m_pwmPath ++ "/export") with
    | none => (PWMStatus.Error, fs)
    | some file => (PWMStatus.Success, fs.close (file.put (to_string p.m_pwmChannel)))

/-- Source: `UnExportPWM()`. -/
def UnExportPWM (p : PWM_Interface) (fs : FileSystem) : PWMStatus × FileSystem :=
  if IsExported p fs = PWMStatus.NotExported then (PWMStatus.Success, fs)
  else
    match fs.openOut (p.m_pwmPath ++ "/unexport") with
    | none => (PWMStatus.Error, fs)
    | some file => (PWMStatus.Success, fs.close (file.put (to_string p.m_pwmChannel)))

/-- Source: `GetPeriod(size_t& period_ns)`. The second component of the result is the
content of `period_ns` after the call. -/
def GetPeriod (p : PWM_Interface) (fs : FileSystem) (period_ns : Nat) :
    Except Exception (PWMStatus × Nat) :=
  match fs.openIn (p.m_pwmPath ++ "/pwm" ++ to_string p.m_pwmChannel ++ "/period") with
  | none => Except.ok (PWMStatus.Error, period_ns)
  | some text =>
    match getline text with
    | none => Except.ok (PWMStatus.Error, period_ns)
    | some period =>
      match stoi period with
      | Except.error e => Except.error e
      | Except.ok v => Except.ok (PWMStatus.Success, intToSizeT v)

/-- Source: `GetPeriod()`, the overload without output argument. -/
def GetPeriod0 (p : PWM_Interface) (fs : FileSystem) : Except Exception Nat :=
  match GetPeriod p fs SIZE_MAX with
  | Except.error e => Except.error e
  | Except.ok (status, period) =>
    if status = PWMStatus.Error then Except.ok SIZE_MAX else Except.ok period

/-- Source: `SetPeriod(size_t period_ns)`. -/
def SetPeriod (p : PWM_Interface) (fs : FileSystem) (period_ns : Nat) :
    PWMStatus × FileSystem :=
  match fs.openOut (p.m_pwmPath ++ "/pwm" ++ to_string p.m_pwmChannel ++ "/period") with
  | none => (PWMStatus.Error, fs)
  | some file => (PWMStatus.Success, fs.close (file.put (to_string_size_t period_ns)))

/-- Source: `GetDutyCycle(size_t& dutyCycle_ns)`. -/
def GetDutyCycle (p : PWM_Interface) (fs : FileSystem) (dutyCycle_ns : Nat) :
    Except Exception (PWMStatus × Nat) :=
  match fs.openIn (p.m_pwmPath ++ "/pwm" ++ to_string p.m_pwmChannel ++ "/duty_cycle") with
  | none => Except.ok (PWMStatus.Error, dutyCycle_ns)
  | some text =>
    match getline text with
    | none => Except.ok (PWMStatus.Error, dutyCycle_ns)
    | some duty =>
      match stoi duty with
      | Except.error e => Except.error e
      | Except.ok v => Except.ok (PWMStatus.Success, intToSizeT v)

/-- Source: `SetDutyCycle(int dutyCycle_ns)`. -/
def SetDutyCycle (p : PWM_Interface) (fs : FileSystem) (dutyCycle_ns : Int) :
    PWMStatus × FileSystem :=
  match fs.openOut (p.m_pwmPath ++ "/pwm" ++ to_string p.m_pwmChannel ++ "/duty_cycle") with
  | none => (PWMStatus.Error, fs)
  | some file => (PWMStatus.Success, fs.close (file.put (to_string dutyCycle_ns)))

/-- Source: `EnableDisablePWM(bool value)`. -/
def EnableDisablePWM (p : PWM_Interface) (fs : FileSystem) (value : Bool) :
    PWMStatus × FileSystem :=
  if IsExported p fs ≠ PWMStatus.Success then (PWMStatus.NotExported, fs)
  else
    match fs.openOut (p.m_pwmPath ++ "/pwm" ++ to_string p.m_pwmChannel ++ "/enable") with
    | none => (PWMStatus.Error, fs)
    | some file => (PWMStatus.Success, fs.close (file.put (to_string_bool value)))

/-- Source: `EnablePWM()`. -/
def EnablePWM (p : PWM_Interface) (fs : FileSystem) : PWMStatus × FileSystem :=
  EnableDisablePWM p fs true

/-- Source: `DisablePWM()`. -/
def DisablePWM (p : PWM_Interface) (fs : FileSystem) : PWMStatus × FileSystem :=
  EnableDisablePWM p fs false

/-- Source: `SetPolarity(const PWMPolarity polarity)`. -/
def SetPolarity (p : PWM_Interface) (fs : FileSystem) (polarity : PWMPolarity) :
    PWMStatus × FileSystem :=
  match DisablePWM p fs with
  | (status, fs1) =>
    if status ≠ PWMStatus.Success then (PWMStatus.Error, fs1)
    else if polarity = PWMPolarity.Unknown then (PWMStatus.InvalidInput, fs1)
    else
      match fs1.openOut (p.m_pwmPath ++ "/pwm" ++ to_string p.m_pwmChannel ++ "/polarity") with
      | none => (PWMStatus.Error, fs1)
      | some file =>
        (PWMStatus.Success,
          fs1.close
            (if polarity = PWMPolarity.Normal then file.put "normal"
             else if polarity = PWMPolarity.Inverted then file.put "inverted"
             else file))

/-- Source: `Constrain(double value)`: `std::max(std::min(value, m_maxDegrees), m_minDegrees)`. -/
def Constrain (p : PWM_Interface) (value : ℚ) : ℚ :=
  max (min value p.m_maxDegrees) p.m_minDegrees

/-- Conversion of a floating value to `int`: the fractional part is discarded. -/
def truncate (x : ℚ) : Int :=
  if 0 ≤ x then ⌊x⌋ else ⌈x⌉

/-- Source: `DegreesToPWM(double degrees)`. The expression
`900 + ((degrees + 60) * (2100 - 900)) / 120` is evaluated in `double`, one rounded
operation after the other, each rounded to binary64 (no extended intermediate precision);
`2100 - 900` is the `int` 1200. The result is `none` when an
operation overflows or the pulse width does not fit `int`, where the conversion has no
defined result; a negative `int` is returned as `size_t` modulo `2^64`. -/
def DegreesToPWM (p : PWM_Interface) (degrees : ℚ) : Option Nat :=
  let degrees := if p.m_maxDegrees ≠ 0 ∧ p.m_minDegrees ≠ 0 then p.Constrain degrees else degrees
  (fadd degrees 60).bind fun sum =>
  (fmul sum ((2100 - 900 : Int) : ℚ)).bind fun product =>
  (fdiv product 120).bind fun quotient =>
  (fadd 900 quotient).bind fun value =>
  let pulseWidth := truncate value
  if INT_MIN ≤ pulseWidth ∧ pulseWidth ≤ INT_MAX then some (intToSizeT pulseWidth) else none

end PWM_Interface

/-! ## `gpio_interface.h` -/

/-- Status returns of `GPIO_Interface`. -/
inductive Status where
  | Success
  | Error
  | NotExported
  deriving DecidableEq, Repr

/-- Direction of a GPIO line. -/
inductive Direction where
  | In
  | Out
  | Unknown
  deriving DecidableEq, Repr

/-- Edge setting of a GPIO line. -/
inductive Edge where
  | None
  | Rising
  | Falling
  | Both
  | Unknown
  deriving DecidableEq, Repr

/-- The data members of `class GPIO_Interface`. -/
structure GPIO_Interface where
  m_gpioPath : String
  m_gpioPin : Int

namespace GPIO_Interface

/-- Source: the member `directionMap`; it has an entry for every enumerator, so
`directionMap.at` never throws. -/
def directionMap (d : Direction) : String :=
  match d with
  | Direction.In => "in"
  | Direction.Out => "out"
  | Direction.Unknown => "unknown"

/-- Source: the member `edgeMap`. -/
def edgeMap (e : Edge) : String :=
  match e with
  | Edge.None => "none"
  | Edge.Rising => "rising"
  | Edge.Falling => "falling"
  | Edge.Both => "both"
  | Edge.Unknown => "unknown"

/-- The keys of `directionMap`, in the order the scan of `GetDirection` visits them.
The order of an `unordered_map` is unspecified; the mapped strings are pairwise
different, so at most one entry matches. -/
def directionKeys : List Direction :=
  [Direction.In, Direction.Out, Direction.Unknown]

/-- The keys of `edgeMap`. -/
def edgeKeys : List Edge :=
  [Edge.None, Edge.Rising, Edge.Falling, Edge.Both, Edge.Unknown]

/-- Source: `IsExported()`: `std::ifstream export_file(m_gpioPath); return export_file.good();`. -/
def IsExported (g : GPIO_Interface) (fs : FileSystem) : Bool :=
  (fs.openIn g.m_gpioPath).isSome

/-- Source: `ExportGPIO()`. The stream is opened and destroyed; nothing is put
into it and its state is not tested. -/
def ExportGPIO (g : GPIO_Interface) (fs : FileSystem) : Status × FileSystem :=
  match fs.openOut (g.m_gpioPath ++ "/export") with
  | none => (Status.Success, fs)
  | some export_file => (Status.Success, fs.close export_file)

/-- Source: `UnExportGPIO()`. -/
def UnExportGPIO (g : GPIO_Interface) (fs : FileSystem) : Status × FileSystem :=
  match fs.openOut (g.m_gpioPath ++ "/unexport") with
  | none => (Status.Success, fs)
  | some unexport_file => (Status.Success, fs.close unexport_file)

/-- Source: `SetEdge(const Edge edge)`. -/
def SetEdge (g : GPIO_Interface) (fs : FileSystem) (edge : Edge) : Status × FileSystem :=
  if edge = Edge.Unknown then (Status.Error, fs)
  else if IsExported g fs then (Status.NotExported, fs)
  else
    match fs.openOut (g.m_gpioPath ++ "/edge") with
    | none => (Status.Error, fs)
    | some direction_file => (Status.Success, fs.close (direction_file.put (edgeMap edge)))

/-- Source: `GetEdge() const`. -/
def GetEdge (g : GPIO_Interface) (fs : FileSystem) : Edge :=
  match fs.openIn (g.m_gpioPath ++ "/edge") with
  | none => Edge.Unknown
  | some text =>
    match edgeKeys.find? (fun entry => edgeMap entry = extractToken text) with
    | some entry => entry
    | none => Edge.Unknown

/-- Source: `SetDirection(const Direction direction)`. -/
def SetDirection (g : GPIO_Interface) (fs : FileSystem) (direction : Direction) :
    Status × FileSystem :=
  if direction = Direction.Unknown then (Status.Error, fs)
  else if IsExported g fs then (Status.NotExported, fs)
  else
    match fs.openOut (g.m_gpioPath ++ "/direction") with
    | none => (Status.Error, fs)
    | some direction_file =>
      (Status.Success, fs.close (direction_file.put (directionMap direction)))

/-- Source: `GetDirection() const`. -/
def GetDirection (g : GPIO_Interface) (fs : FileSystem) : Direction :=
  match fs.openIn (g.m_gpioPath ++ "/direction") with
  | none => Direction.Unknown
  | some text =>
    match directionKeys.find? (fun entry => directionMap entry = extractToken text) with
    | some entry => entry
    | none => Direction.Unknown

/-- Source: `SetValue(int value)`. -/
def SetValue (g : GPIO_Interface) (fs : FileSystem) (value : Int) : Status × FileSystem :=
  if !IsExported g fs then (Status.NotExported, fs)
  else
    match fs.openOut (g.m_gpioPath ++ "/value") with
    | none => (Status.Error, fs)
    | some value_file => (Status.Success, fs.close (value_file.put (to_string value)))

/-- Source: `GetValue(int& value)`. The second component of the result is the content
of `value` after the call. -/
def GetValue (g : GPIO_Interface) (fs : FileSystem) (value : Int) : Status × Int :=
  if !IsExported g fs then (Status.NotExported, value)
  else
    match fs.openIn (g.m_gpioPath ++ "/value") with
    | none => (Status.Error, value)
    | some text => (Status.Success, extractInt text value)

end GPIO_Interface

/-! ## Concrete file systems used below -/

/-- A file system holding the given files, all of them writable, nothing else
openable, with an empty write record. -/
def fsOf (entries : List (String × String)) : FileSystem :=
  { files := fun p => entries.lookup p
    writable := fun p => (entries.lookup p).isSome
    writes := [] }

/-- An empty directory tree: nothing can be opened. -/
def fsEmpty : FileSystem :=
  fsOf []

/-- A PWM channel 0 on `pwmchip0`, constructed with the default arguments. -/
def pwm0 : PWM_Interface :=
  PWM_Interface.ctor "/sys/class/pwm/pwmchip0" 0 0 0

/-- GPIO line 17. -/
def gpio17 : GPIO_Interface :=
  { m_gpioPath := "/sys/class/gpio/gpio17", m_gpioPin := 17 }

/-- Line 17 is exported: its directory opens and its direction reads "out". -/
def fsGpioExported : FileSystem :=
  fsOf [("/sys/class/gpio/gpio17", ""), ("/sys/class/gpio/gpio17/direction", "out"),
        ("/sys/class/gpio/gpio17/value", "1")]

/-- Channel 0 is exported and enabled; its period file exists. -/
def fsPwmEnabled : FileSystem :=
  fsOf [("/sys/class/pwm/pwmchip0/export", "0"), ("/sys/class/pwm/pwmchip0/pwm0/enable", "1"),
        ("/sys/class/pwm/pwmchip0/pwm0/polarity", "normal"),
        ("/sys/class/pwm/pwmchip0/pwm0/period", "20000000")]

/-- Line 17 is exported, and its directory holds no attribute file. -/
def fsGpioLineOnly : FileSystem :=
  fsOf [("/sys/class/gpio/gpio17", "")]

/-- A plain directory tree without files in which every file can be created. -/
def fsScratchDir : FileSystem :=
  { files := fun _ => none
    writable := fun _ => true
    writes := [] }

/-- A PWM controller whose export attribute is there and empty. -/
def fsPwmFresh : FileSystem :=
  fsOf [("/sys/class/pwm/pwmchip0/export", "")]

/-- Pin 17 addressed through the controller directory. -/
def gpioPin17 : GPIO_Interface :=
  { m_gpioPath := "/sys/class/gpio", m_gpioPin := 17 }

/-- A GPIO controller with its export and unexport attributes. -/
def fsGpioController : FileSystem :=
  fsOf [("/sys/class/gpio/export", ""), ("/sys/class/gpio/unexport", "")]

/-! ## Rounding to binary64 -/

section Rounding

theorem roundNearestEven_cases (x : ℚ) :
    roundNearestEven x = ⌊x⌋ ∧ x - ⌊x⌋ ≤ 1 / 2 ∨
      roundNearestEven x = ⌊x⌋ + 1 ∧ 1 / 2 ≤ x - ⌊x⌋ := by
  unfold roundNearestEven
  split_ifs with h1 h2 h3
  · exact Or.inl ⟨rfl, le_of_lt h1⟩
  · exact Or.inr ⟨rfl, le_of_lt h2⟩
  · exact Or.inl ⟨rfl, not_lt.mp h2⟩
  · exact Or.inr ⟨rfl, not_lt.mp h1⟩

theorem abs_roundNearestEven_sub_le (x : ℚ) : |(roundNearestEven x : ℚ) - x| ≤ 1 / 2 := by
  have h0 := Int.floor_le x
  have h1 := Int.lt_floor_add_one x
  rw [abs_le]
  rcases roundNearestEven_cases x with ⟨h, hx⟩ | ⟨h, hx⟩
  · rw [h]; constructor <;> linarith
  · rw [h]; push_cast; constructor <;> linarith

theorem roundNearestEven_le {x : ℚ} {K : Int} (h : x ≤ K) : roundNearestEven x ≤ K := by
  have h0 := Int.floor_le x
  have hfl : ⌊x⌋ ≤ K := by exact_mod_cast le_trans h0 h
  rcases roundNearestEven_cases x with ⟨hr, hx⟩ | ⟨hr, hx⟩
  · rw [hr]; exact hfl
  · rw [hr]
    have : (⌊x⌋ : ℚ) < K := by linarith
    have : ⌊x⌋ < K := by exact_mod_cast this
    omega

theorem le_roundNearestEven {x : ℚ} {K : Int} (h : (K : ℚ) ≤ x) : K ≤ roundNearestEven x := by
  have hfl : K ≤ ⌊x⌋ := Int.le_floor.mpr h
  rcases roundNearestEven_cases x with ⟨hr, _⟩ | ⟨hr, _⟩ <;> rw [hr] <;> omega

theorem roundNearestEven_intCast (K : Int) : roundNearestEven (K : ℚ) = K :=
  le_antisymm (roundNearestEven_le le_rfl) (le_roundNearestEven le_rfl)

theorem roundNearestEven_eq_of_abs_sub_lt {x : ℚ} {K : Int} (h : |x - K| < 1 / 2) :
    roundNearestEven x = K := by
  have h1 := abs_roundNearestEven_sub_le x
  rw [abs_lt] at h
  rw [abs_le] at h1
  have hlt : ((roundNearestEven x - K : Int) : ℚ) < 1 := by push_cast; linarith
  have hgt : (-1 : ℚ) < ((roundNearestEven x - K : Int) : ℚ) := by push_cast; linarith
  have hlt' : roundNearestEven x - K < 1 := by exact_mod_cast hlt
  have hgt' : -1 < roundNearestEven x - K := by exact_mod_cast hgt
  omega

theorem binade_le {z : ℚ} {k : Int} (hk : 0 ≤ k) (h : |z| < 2 ^ (k + 1)) : binade z ≤ k := by
  unfold binade
  apply max_le _ (by omega)
  rcases eq_or_ne z 0 with hz | hz
  · simp [hz, hk]
  · have hpos : 0 < |z| := abs_pos.mpr hz
    have := (Int.lt_zpow_iff_log_lt (b := 2) (by norm_num) hpos).mp (by exact_mod_cast h)
    omega

theorem binade_eq {z : ℚ} {k : Int} (hk : -1022 ≤ k) (hlo : 2 ^ k ≤ |z|)
    (hhi : |z| < 2 ^ (k + 1)) : binade z = k := by
  have hpos : 0 < |z| := lt_of_lt_of_le (by positivity) hlo
  have h1 := (Int.lt_zpow_iff_log_lt (b := 2) (by norm_num) hpos).mp (by exact_mod_cast hhi)
  have h2 := (Int.zpow_le_iff_le_log (b := 2) (by norm_num) hpos).mp (by exact_mod_cast hlo)
  unfold binade
  rw [max_eq_left (by omega)]
  omega

theorem quantum_pos (z : ℚ) : (0 : ℚ) < 2 ^ (binade z - 52) := by positivity

theorem exists_int_mul_zpow (m e t : Int) (h : t ≤ e) :
    ∃ N : Int, (N : ℚ) * 2 ^ t = (m : ℚ) * 2 ^ e := by
  refine ⟨m * 2 ^ (e - t).toNat, ?_⟩
  have he : e = ((e - t).toNat : Int) + t := by omega
  push_cast
  rw [mul_assoc, ← zpow_natCast, ← zpow_add₀ (two_ne_zero), ← he]

theorem roundToQuantum_le_of_grid {z c : ℚ} (N : Int)
    (hc : (N : ℚ) * 2 ^ (binade z - 52) = c) (h : z ≤ c) : roundToQuantum z ≤ c := by
  have hq := quantum_pos z
  have hx : z / 2 ^ (binade z - 52) ≤ N := by
    rw [div_le_iff₀ hq, hc]
    exact h
  have := roundNearestEven_le hx
  have hcast : (roundNearestEven (z / 2 ^ (binade z - 52)) : ℚ) ≤ N := by exact_mod_cast this
  unfold roundToQuantum
  rw [← hc]
  exact mul_le_mul_of_nonneg_right hcast (le_of_lt hq)

theorem le_roundToQuantum_of_grid {z c : ℚ} (N : Int)
    (hc : (N : ℚ) * 2 ^ (binade z - 52) = c) (h : c ≤ z) : c ≤ roundToQuantum z := by
  have hq := quantum_pos z
  have hx : (N : ℚ) ≤ z / 2 ^ (binade z - 52) := by
    rw [le_div_iff₀ hq, hc]
    exact h
  have := le_roundNearestEven hx
  have hcast : (N : ℚ) ≤ roundNearestEven (z / 2 ^ (binade z - 52)) := by exact_mod_cast this
  unfold roundToQuantum
  rw [← hc]
  exact mul_le_mul_of_nonneg_right hcast (le_of_lt hq)

theorem roundToQuantum_eq_of_grid {z : ℚ} (N : Int)
    (hc : (N : ℚ) * 2 ^ (binade z - 52) = z) : roundToQuantum z = z :=
  le_antisymm (roundToQuantum_le_of_grid N hc le_rfl) (le_roundToQuantum_of_grid N hc le_rfl)

/-- Rounding does not cross an integer when the argument is below `2 ^ 53`. -/
theorem roundToQuantum_le_intCast {z : ℚ} {c : Int} (hz : |z| < 2 ^ 53) (h : z ≤ c) :
    roundToQuantum z ≤ c := by
  have hb : binade z ≤ 52 := binade_le (by norm_num) (by norm_num; exact hz)
  obtain ⟨N, hN⟩ := exists_int_mul_zpow c 0 (binade z - 52) (by omega)
  rw [zpow_zero, mul_one] at hN
  exact roundToQuantum_le_of_grid N hN h

theorem intCast_le_roundToQuantum {z : ℚ} {c : Int} (hz : |z| < 2 ^ 53) (h : (c : ℚ) ≤ z) :
    (c : ℚ) ≤ roundToQuantum z := by
  have hb : binade z ≤ 52 := binade_le (by norm_num) (by norm_num; exact hz)
  obtain ⟨N, hN⟩ := exists_int_mul_zpow c 0 (binade z - 52) (by omega)
  rw [zpow_zero, mul_one] at hN
  exact le_roundToQuantum_of_grid N hN h

/-- A value `m * 2 ^ e` with a significand of at most 53 bits and an exponent
of a binary64 value is not changed by rounding. -/
theorem roundToQuantum_dyadic (m e : Int) (hm : |m| < 2 ^ 53) (he : -1074 ≤ e) :
    roundToQuantum ((m : ℚ) * 2 ^ e) = (m : ℚ) * 2 ^ e := by
  rcases eq_or_ne m 0 with h0 | h0
  · subst h0
    simp [roundToQuantum, roundNearestEven]
  · have hmq : |(m : ℚ)| < 2 ^ 53 := by exact_mod_cast hm
    have hpos : 0 < |(m : ℚ) * 2 ^ e| := by
      apply abs_pos.mpr
      have : (m : ℚ) ≠ 0 := by exact_mod_cast h0
      positivity
    have hlt : |(m : ℚ) * 2 ^ e| < 2 ^ (e + 53) := by
      rw [abs_mul, abs_of_pos (by positivity : (0 : ℚ) < 2 ^ e), zpow_add₀ (two_ne_zero),
        mul_comm]
      have : (2 : ℚ) ^ (53 : Int) = 2 ^ 53 := by norm_num
      rw [this]
      exact mul_lt_mul_of_pos_left hmq (by positivity)
    have hlog := (Int.lt_zpow_iff_log_lt (b := 2) (by norm_num) hpos).mp (by exact_mod_cast hlt)
    have hb : binade ((m : ℚ) * 2 ^ e) - 52 ≤ e := by
      unfold binade
      have : max (Int.log 2 |(m : ℚ) * 2 ^ e|) (-1022) ≤ e + 52 := max_le (by omega) (by omega)
      omega
    obtain ⟨N, hN⟩ := exists_int_mul_zpow m e _ hb
    exact roundToQuantum_eq_of_grid N hN

/-- The rounding error is at most half a unit in the last place. -/
theorem abs_roundToQuantum_sub_le {z : ℚ} {k : Int} (hk : 0 ≤ k) (hz : |z| < 2 ^ (k + 1)) :
    |roundToQuantum z - z| ≤ 2 ^ (k - 53) := by
  have hb := binade_le hk hz
  have hq := quantum_pos z
  have herr := abs_roundNearestEven_sub_le (z / 2 ^ (binade z - 52))
  have hz' : z = z / 2 ^ (binade z - 52) * 2 ^ (binade z - 52) := by
    field_simp
  have hdiff : roundToQuantum z - z =
      ((roundNearestEven (z / 2 ^ (binade z - 52)) : ℚ) - z / 2 ^ (binade z - 52)) *
        2 ^ (binade z - 52) := by
    unfold roundToQuantum
    rw [sub_mul, ← hz']
  rw [hdiff, abs_mul, abs_of_pos hq]
  have hstep : (2 : ℚ) ^ (binade z - 52) ≤ 2 ^ (k - 52) :=
    zpow_le_zpow_right₀ (by norm_num) (by omega)
  have hhalf : (2 : ℚ) ^ (k - 53) = 1 / 2 * 2 ^ (k - 52) := by
    have : k - 52 = (k - 53) + 1 := by omega
    rw [this, zpow_add₀ (two_ne_zero), zpow_one]
    ring
  rw [hhalf]
  exact mul_le_mul herr hstep (le_of_lt hq) (by norm_num)

/-- A value strictly closer to a grid point of its binade than half a quantum rounds to it. -/
theorem roundToQuantum_eq_of_near {z : ℚ} (k N : Int) (hk : -1022 ≤ k) (hlo : 2 ^ k ≤ |z|)
    (hhi : |z| < 2 ^ (k + 1)) (h : |z / 2 ^ (k - 52) - N| < 1 / 2) :
    roundToQuantum z = (N : ℚ) * 2 ^ (k - 52) := by
  unfold roundToQuantum
  rw [binade_eq hk hlo hhi, roundNearestEven_eq_of_abs_sub_lt h]

end Rounding

/-! ## Degrees to pulse width -/

section Degrees

open PWM_Interface

theorem truncate_of_nonneg {x : ℚ} (hx : 0 ≤ x) : truncate x = ⌊x⌋ := by
  simp [truncate, hx]

theorem truncate_intCast (K : Int) : truncate (K : ℚ) = K := by
  unfold truncate
  split <;> simp

/-- No overflow below `2 ^ 53`. -/
theorem roundBinary64_of_lt {z : ℚ} (hz : |z| < 2 ^ 53) :
    roundBinary64 z = some (roundToQuantum z) := by
  have hz' := abs_lt.mp hz
  have hup : roundToQuantum z ≤ ((2 ^ 53 : Int) : ℚ) :=
    roundToQuantum_le_intCast hz (by push_cast; linarith)
  have hdn : ((-2 ^ 53 : Int) : ℚ) ≤ roundToQuantum z :=
    intCast_le_roundToQuantum hz (by push_cast; linarith)
  push_cast at hup hdn
  have hlt : |roundToQuantum z| < 2 ^ (1024 : Int) := by
    rw [abs_lt]
    constructor
    · refine lt_of_lt_of_le ?_ hdn
      norm_num
    · refine lt_of_le_of_lt hup ?_
      norm_num
  simp only [roundBinary64, if_pos hlt]

/-- Integers below `2 ^ 53` are binary64 values. -/
theorem roundBinary64_intCast (K : Int) (h : |K| < 2 ^ 53) :
    roundBinary64 (K : ℚ) = some (K : ℚ) := by
  have hq : |(K : ℚ)| < 2 ^ 53 := by exact_mod_cast h
  rw [roundBinary64_of_lt hq]
  have := roundToQuantum_dyadic K 0 h (by norm_num)
  simpa using this

/-- Values `m * 2 ^ e` with `|m| < 2 ^ 53` and `-1074 <= e <= 0` are binary64 values. -/
theorem roundBinary64_dyadic (m e : Int) (hm : |m| < 2 ^ 53) (he : -1074 ≤ e) (he0 : e ≤ 0) :
    roundBinary64 ((m : ℚ) * 2 ^ e) = some ((m : ℚ) * 2 ^ e) := by
  have hmq : |(m : ℚ)| < 2 ^ 53 := by exact_mod_cast hm
  have hle : (2 : ℚ) ^ e ≤ 1 := zpow_le_one_of_nonpos₀ (by norm_num) he0
  have hq : |(m : ℚ) * 2 ^ e| < 2 ^ 53 := by
    rw [abs_mul, abs_of_pos (by positivity : (0 : ℚ) < 2 ^ e)]
    calc |(m : ℚ)| * 2 ^ e ≤ |(m : ℚ)| * 1 :=
          mul_le_mul_of_nonneg_left hle (abs_nonneg _)
      _ < 2 ^ 53 := by rw [mul_one]; exact hmq
  rw [roundBinary64_of_lt hq, roundToQuantum_dyadic m e hm he]

/-- The body of `DegreesToPWM` once the four rounded operations are known. -/
theorem DegreesToPWM_of_steps (p : PWM_Interface) (d s1 s2 s3 s4 : ℚ)
    (h1 : fadd (if p.m_maxDegrees ≠ 0 ∧ p.m_minDegrees ≠ 0 then p.Constrain d else d) 60 =
      some s1)
    (h2 : fmul s1 1200 = some s2) (h3 : fdiv s2 120 = some s3) (h4 : fadd 900 s3 = some s4) :
    DegreesToPWM p d =
      if INT_MIN ≤ truncate s4 ∧ truncate s4 ≤ INT_MAX then some (intToSizeT (truncate s4))
      else none := by
  have hc : (((2100 - 900 : Int) : ℚ)) = 1200 := by norm_num
  simp only [DegreesToPWM, hc, h1, h2, h3, h4, Option.bind_some, Option.some_bind]

/-- On an integer number of degrees every operation is exact. -/
theorem DegreesToPWM_intCast (p : PWM_Interface) (d : ℚ) (k : Int) (hk : |k| ≤ 100000000)
    (hd : (if p.m_maxDegrees ≠ 0 ∧ p.m_minDegrees ≠ 0 then p.Constrain d else d) = (k : ℚ)) :
    DegreesToPWM p d = some (intToSizeT (900 + (k + 60) * 10)) := by
  have hk' := abs_le.mp hk
  have h1 : fadd (if p.m_maxDegrees ≠ 0 ∧ p.m_minDegrees ≠ 0 then p.Constrain d else d) 60 =
      some (((k + 60 : Int) : ℚ)) := by
    rw [hd, fadd]
    have := roundBinary64_intCast (k + 60) (by rw [abs_lt]; constructor <;> omega)
    rw [← this]; push_cast; rfl
  have h2 : fmul (((k + 60 : Int) : ℚ)) 1200 = some ((((k + 60) * 1200 : Int) : ℚ)) := by
    rw [fmul]
    have := roundBinary64_intCast ((k + 60) * 1200) (by rw [abs_lt]; constructor <;> omega)
    rw [← this]; push_cast; rfl
  have h3 : fdiv ((((k + 60) * 1200 : Int) : ℚ)) 120 = some ((((k + 60) * 10 : Int) : ℚ)) := by
    rw [fdiv]
    have := roundBinary64_intCast ((k + 60) * 10) (by rw [abs_lt]; constructor <;> omega)
    rw [← this]; push_cast; congr 1; ring
  have h4 : fadd 900 ((((k + 60) * 10 : Int) : ℚ)) =
      some (((900 + (k + 60) * 10 : Int) : ℚ)) := by
    rw [fadd]
    have := roundBinary64_intCast (900 + (k + 60) * 10) (by rw [abs_lt]; constructor <;> omega)
    rw [← this]; push_cast; rfl
  rw [DegreesToPWM_of_steps p d _ _ _ _ h1 h2 h3 h4, truncate_intCast]
  have hr : INT_MIN ≤ 900 + (k + 60) * 10 ∧ 900 + (k + 60) * 10 ≤ INT_MAX := by
    simp only [INT_MIN, INT_MAX]
    constructor <;> omega
  rw [if_pos hr]

end Degrees

section DegreesNominal

open PWM_Interface

/-- One rounded operation on an argument between two integers below `2 ^ 53`: it does not
overflow, stays between the two integers and is off by at most `2 ^ (k - 53)`. -/
theorem roundBinary64_between {z : ℚ} (lo hi k : Int) (hlo : (lo : ℚ) ≤ z) (hhi : z ≤ (hi : ℚ))
    (h0 : 0 ≤ lo) (hk : 0 ≤ k) (hk52 : k ≤ 52) (hbound : (hi : ℚ) < 2 ^ (k + 1)) :
    ∃ s : ℚ, roundBinary64 z = some s ∧ (lo : ℚ) ≤ s ∧ s ≤ (hi : ℚ) ∧
      |s - z| ≤ 2 ^ (k - 53) := by
  have hz0 : 0 ≤ z := le_trans (by exact_mod_cast h0) hlo
  have habs : |z| < 2 ^ (k + 1) := by
    rw [abs_of_nonneg hz0]
    exact lt_of_le_of_lt hhi hbound
  have h53 : |z| < 2 ^ 53 := by
    refine lt_of_lt_of_le habs ?_
    have hpow : (2 : ℚ) ^ (k + 1) ≤ 2 ^ (53 : Int) :=
      zpow_le_zpow_right₀ (by norm_num) (by omega)
    exact hpow.trans_eq (by norm_num)
  exact ⟨roundToQuantum z, roundBinary64_of_lt h53, intCast_le_roundToQuantum h53 hlo,
    roundToQuantum_le_intCast h53 hhi, abs_roundToQuantum_sub_le hk habs⟩

/-- On the nominal range the computed pulse stays in `[900, 2100]` and within `2 ^ -40` of
the exact affine image; the result is its integer part. -/
theorem DegreesToPWM_nominal (p : PWM_Interface)
    (h : ¬ (p.m_maxDegrees ≠ 0 ∧ p.m_minDegrees ≠ 0)) (d : ℚ) (hlo : -60 ≤ d) (hhi : d ≤ 60) :
    ∃ y : ℚ, (900 : ℚ) ≤ y ∧ y ≤ 2100 ∧
      |y - (900 + (d + 60) * (2100 - 900) / 120)| < 1 / 2 ^ 40 ∧
      DegreesToPWM p d = some ⌊y⌋.toNat := by
  obtain ⟨s1, h1, l1, u1, e1⟩ := roundBinary64_between (z := d + 60) 0 120 6
    (by push_cast; linarith) (by push_cast; linarith) le_rfl (by norm_num) (by norm_num)
    (by norm_num)
  push_cast at l1 u1
  obtain ⟨s2, h2, l2, u2, e2⟩ := roundBinary64_between (z := s1 * 1200) 0 144000 17
    (by push_cast; nlinarith) (by push_cast; nlinarith) le_rfl (by norm_num) (by norm_num)
    (by norm_num)
  push_cast at l2 u2
  obtain ⟨s3, h3, l3, u3, e3⟩ := roundBinary64_between (z := s2 / 120) 0 1200 10
    (by push_cast; positivity) (by push_cast; linarith) le_rfl (by norm_num) (by norm_num)
    (by norm_num)
  push_cast at l3 u3
  obtain ⟨s4, h4, l4, u4, e4⟩ := roundBinary64_between (z := 900 + s3) 900 2100 11
    (by push_cast; linarith) (by push_cast; linarith) (by norm_num) (by norm_num)
    (by norm_num) (by norm_num)
  push_cast at l4 u4
  have hf0 : (900 : Int) ≤ ⌊s4⌋ := Int.le_floor.mpr (by push_cast; exact l4)
  have hf1 : ⌊s4⌋ ≤ (2100 : Int) := by
    have := Int.floor_le_floor u4
    simpa using this
  refine ⟨s4, l4, u4, ?_, ?_⟩
  · rw [abs_le] at e1 e2 e3 e4
    norm_num at e1 e2 e3 e4
    rw [abs_lt]
    norm_num
    constructor <;> linarith [e1.1, e1.2, e2.1, e2.2, e3.1, e3.2, e4.1, e4.2]
  · have h1' : fadd (if p.m_maxDegrees ≠ 0 ∧ p.m_minDegrees ≠ 0 then p.Constrain d else d) 60 =
        some s1 := by
      rw [if_neg h]; exact h1
    rw [DegreesToPWM_of_steps p d s1 s2 s3 s4 h1' h2 h3 h4,
      truncate_of_nonneg (by linarith)]
    have hr : INT_MIN ≤ ⌊s4⌋ ∧ ⌊s4⌋ ≤ INT_MAX := by
      simp only [INT_MIN, INT_MAX]
      omega
    rw [if_pos hr]
    congr 1
    unfold intToSizeT
    rw [Int.emod_eq_of_lt (by omega) (by omega)]

/-- The literal `-59.7` denotes a binary64 value. -/
theorem isBinary64_minus59_7 : isBinary64 minus59_7 := by
  have := roundBinary64_dyadic (-8402028054813082) (-47) (by norm_num) (by norm_num)
    (by norm_num)
  have hv : ((-8402028054813082 : Int) : ℚ) * 2 ^ (-47 : Int) = minus59_7 := by
    norm_num [minus59_7]
  rw [hv] at this
  exact this

/-- A value in a known binade that is closer than half a quantum to a grid point. -/
theorem roundBinary64_eq_of_near {z : ℚ} (k N : Int) (hk : -1022 ≤ k) (hlo : 2 ^ k ≤ |z|)
    (hhi : |z| < 2 ^ (k + 1)) (h : |z / 2 ^ (k - 52) - N| < 1 / 2)
    (hfin : |(N : ℚ) * 2 ^ (k - 52)| < 2 ^ (1024 : Int)) :
    roundBinary64 z = some ((N : ℚ) * 2 ^ (k - 52)) := by
  unfold roundBinary64
  rw [roundToQuantum_eq_of_near k N hk hlo hhi h, if_pos hfin]

/-- The four operations of `DegreesToPWM` at the `double` -59.7: the sum, the product and
the quotient are exact, the last sum rounds up to 903. -/
theorem DegreesToPWM_minus59_7 (p : PWM_Interface)
    (h : ¬ (p.m_maxDegrees ≠ 0 ∧ p.m_minDegrees ≠ 0)) :
    DegreesToPWM p minus59_7 = some 903 := by
  have h1 : fadd (if p.m_maxDegrees ≠ 0 ∧ p.m_minDegrees ≠ 0 then p.Constrain minus59_7
      else minus59_7) 60 = some (((42221246506598 : Int) : ℚ) * 2 ^ (-47 : Int)) := by
    rw [if_neg h, fadd]
    have := roundBinary64_dyadic 42221246506598 (-47) (by norm_num) (by norm_num)
      (by norm_num)
    rw [← this]
    congr 1
    norm_num [minus59_7]
  have h2 : fmul (((42221246506598 : Int) : ℚ) * 2 ^ (-47 : Int)) 1200 =
      some (((1583296743997425 : Int) : ℚ) * 2 ^ (-42 : Int)) := by
    rw [fmul]
    have := roundBinary64_dyadic 1583296743997425 (-42) (by norm_num) (by norm_num)
      (by norm_num)
    rw [← this]
    congr 1
    norm_num
  have h3 : fdiv (((1583296743997425 : Int) : ℚ) * 2 ^ (-42 : Int)) 120 =
      some (((422212465065980 : Int) : ℚ) * 2 ^ (-47 : Int)) := by
    rw [fdiv]
    have := roundBinary64_dyadic 422212465065980 (-47) (by norm_num) (by norm_num)
      (by norm_num)
    rw [← this]
    congr 1
    norm_num
  have h4 : fadd 900 (((422212465065980 : Int) : ℚ) * 2 ^ (-47 : Int)) = some 903 := by
    rw [fadd]
    have := roundBinary64_eq_of_near (z := 900 + ((422212465065980 : Int) : ℚ) * 2 ^ (-47 : Int))
      9 7942871999053824 (by norm_num) (by norm_num [abs_of_pos]) (by norm_num [abs_of_pos])
      (by norm_num [abs_lt]) (by norm_num [abs_of_pos])
    rw [this]
    congr 1
    norm_num
  rw [DegreesToPWM_of_steps p minus59_7 _ _ _ _ h1 h2 h3 h4]
  have ht : truncate 903 = 903 := by
    have := truncate_intCast 903
    simpa using this
  rw [ht]
  rfl

end DegreesNominal

/-! ## Decimal text -/

section Decimal

theorem digitChar_toNat (d : Nat) (h : d < 10) : (digitChar d).toNat = 48 + d := by
  interval_cases d <;> rfl

theorem decimalDigits_ne_nil (fuel n : Nat) : decimalDigits (fuel + 1) n ≠ [] := by
  unfold decimalDigits
  split <;> simp

theorem decimalDigits_digit (fuel : Nat) :
    ∀ n c, c ∈ decimalDigits fuel n → 48 ≤ c.toNat ∧ c.toNat ≤ 57 := by
  induction fuel with
  | zero => intro n c hc; simp [decimalDigits] at hc
  | succ fuel ih =>
    intro n c hc
    unfold decimalDigits at hc
    split at hc
    · rename_i hn
      simp only [List.mem_singleton] at hc
      subst hc
      rw [digitChar_toNat n hn]
      omega
    · simp only [List.mem_append, List.mem_singleton] at hc
      rcases hc with hc | hc
      · exact ih _ _ hc
      · subst hc
        rw [digitChar_toNat _ (Nat.mod_lt _ (by decide))]
        omega

theorem digitsValue_append_singleton (cs : List Char) (c : Char) :
    digitsValue (cs ++ [c]) = digitsValue cs * 10 + (c.toNat - 48) := by
  simp [digitsValue, List.foldl_append]

theorem digitsValue_decimalDigits (fuel : Nat) :
    ∀ n, n < fuel → digitsValue (decimalDigits fuel n) = n := by
  induction fuel with
  | zero => intro n hn; omega
  | succ fuel ih =>
    intro n hn
    unfold decimalDigits
    split
    · rename_i h10
      simp [digitsValue, digitChar_toNat n h10]
    · rename_i h10
      rw [digitsValue_append_singleton, ih (n / 10) (by omega),
        digitChar_toNat _ (Nat.mod_lt _ (by decide))]
      omega

theorem natToChars_ne_nil (n : Nat) : natToChars n ≠ [] :=
  decimalDigits_ne_nil n n

theorem natToChars_digit (n : Nat) (c : Char) (hc : c ∈ natToChars n) :
    48 ≤ c.toNat ∧ c.toNat ≤ 57 :=
  decimalDigits_digit _ _ _ hc

theorem digitsValue_natToChars (n : Nat) : digitsValue (natToChars n) = n :=
  digitsValue_decimalDigits _ _ (Nat.lt_succ_self n)

theorem intToChars_ne_nil (v : Int) : intToChars v ≠ [] := by
  unfold intToChars
  split
  · simp
  · exact natToChars_ne_nil _

theorem intToChars_no_newline (v : Int) (c : Char) (hc : c ∈ intToChars v) :
    c ≠ Char.ofNat 10 := by
  unfold intToChars at hc
  have key : ∀ c, c ∈ natToChars v.natAbs → c ≠ Char.ofNat 10 := by
    intro c hc h
    have := natToChars_digit _ _ hc
    rw [h] at this
    exact absurd this (by decide)
  split at hc
  · simp only [List.mem_cons] at hc
    rcases hc with hc | hc
    · rw [hc]; decide
    · exact key c hc
  · exact key c hc

/-- Reading a line back from a file that holds only non-empty text without a newline. -/
theorem getline_of_no_newline (cs : List Char) (hne : cs ≠ [])
    (hnl : ∀ c ∈ cs, c ≠ Char.ofNat 10) : getline (String.mk cs) = some (String.mk cs) := by
  unfold getline
  simp only [hne, if_false]
  congr 2
  rw [List.takeWhile_eq_self_iff]
  intro c hc
  simpa using hnl c hc

theorem getline_to_string (v : Int) : getline (to_string v) = some (to_string v) :=
  getline_of_no_newline _ (intToChars_ne_nil v) (intToChars_no_newline v)

theorem getline_to_string_size_t (n : Nat) :
    getline (to_string_size_t n) = some (to_string_size_t n) := by
  apply getline_of_no_newline _ (natToChars_ne_nil n)
  intro c hc h
  have := natToChars_digit _ _ hc
  rw [h] at this
  exact absurd this (by decide)

/-- Parsing the decimal text of an unsigned value gives the value back. -/
theorem parseInt_natToChars (n : Nat) :
    parseInt ((natToChars n).dropWhile isspace) = some (n : Int) := by
  have hne := natToChars_ne_nil n
  have hdig := natToChars_digit n
  have hval := digitsValue_natToChars n
  generalize natToChars n = cs at hne hdig hval
  cases cs with
  | nil => exact absurd rfl hne
  | cons c rest =>
    have hc := hdig c (List.mem_cons_self _ _)
    have hsp : isspace c = false := by
      simp only [isspace, Bool.or_eq_false_iff, beq_eq_false_iff_ne, Bool.and_eq_false_iff,
        decide_eq_false_iff_not]
      omega
    have hminus : c ≠ '-' := by
      intro h; rw [h] at hc; exact absurd hc (by decide)
    have hplus : c ≠ '+' := by
      intro h; rw [h] at hc; exact absurd hc (by decide)
    have htake : (c :: rest).takeWhile isdigit = c :: rest := by
      rw [List.takeWhile_eq_self_iff]
      intro x hx
      have := hdig x hx
      simp [isdigit, this.1, this.2]
    rw [List.dropWhile_cons, hsp]
    simp only [Bool.false_eq_true, if_false]
    unfold parseInt
    simp only [hminus, hplus, if_false, htake]
    simp [hval]

/-- Model of `std::stoi` on what `file << size_t` wrote. -/
theorem stoi_to_string_size_t (n : Nat) :
    stoi (to_string_size_t n) =
      if (n : Int) ≤ INT_MAX then Except.ok (n : Int)
      else Except.error Exception.out_of_range := by
  unfold stoi to_string_size_t
  simp only [parseInt_natToChars]
  have h0 : INT_MIN ≤ (n : Int) := by
    unfold INT_MIN
    omega
  simp [h0]

theorem empty_put (path text : String) :
    (ofstream.put ⟨path, ""⟩ text) = ⟨path, text⟩ := by
  simp [ofstream.put]

end Decimal

/-! ## Claims on `DegreesToPWM` -/

section DegreesClaims

open PWM_Interface

/-- Constraining is idempotent on the clamped argument when the range is not empty. -/
theorem Constrain_clamp (p : PWM_Interface) (h : p.m_minDegrees ≤ p.m_maxDegrees) (d : ℚ) :
    p.Constrain (if d < p.m_minDegrees then p.m_minDegrees
      else if p.m_maxDegrees < d then p.m_maxDegrees else d) = p.Constrain d := by
  unfold Constrain
  simp only [min_def, max_def]
  split_ifs <;> linarith

/-- Constraining with a non-empty range is clamping. -/
theorem Constrain_eq_clamp (p : PWM_Interface) (h : p.m_minDegrees ≤ p.m_maxDegrees) (d : ℚ) :
    p.Constrain d = (if d < p.m_minDegrees then p.m_minDegrees
      else if p.m_maxDegrees < d then p.m_maxDegrees else d) := by
  unfold Constrain
  simp only [min_def, max_def]
  split_ifs <;> linarith

/-- The result depends on the interface and the argument only through the value that
enters the arithmetic. -/
theorem DegreesToPWM_congr (p q : PWM_Interface) (d e : ℚ)
    (h : (if p.m_maxDegrees ≠ 0 ∧ p.m_minDegrees ≠ 0 then p.Constrain d else d) =
      (if q.m_maxDegrees ≠ 0 ∧ q.m_minDegrees ≠ 0 then q.Constrain e else e)) :
    DegreesToPWM p d = DegreesToPWM q e := by
  simp only [DegreesToPWM, h]

/-- C1, as stated, fails: at the `double` that `-59.7` denotes, inside `[-60, 60]`, the
code returns 903 while the exact image `900 + (d + 60) * (2100 - 900) / 120` is below 903,
so the result is not that image truncated toward zero. -/
theorem DegreesToPWM_not_exact_truncation :
    isBinary64 minus59_7 ∧ |minus59_7 + 597 / 10| < 1 / 2 ^ 48 ∧
    -60 ≤ minus59_7 ∧ minus59_7 ≤ 60 ∧
    DegreesToPWM (ctor "/sys/class/pwm/pwmchip0" 0 0 0) minus59_7 = some 903 ∧
    900 + (minus59_7 + 60) * (2100 - 900) / 120 < 903 ∧
    ¬ ∃ n : Nat, DegreesToPWM (ctor "/sys/class/pwm/pwmchip0" 0 0 0) minus59_7 = some n ∧
      900 ≤ n ∧ n ≤ 2100 ∧
      (n : ℚ) ≤ 900 + (minus59_7 + 60) * (2100 - 900) / 120 ∧
      900 + (minus59_7 + 60) * (2100 - 900) / 120 < (n : ℚ) + 1 := by
  have hno : ¬ ((ctor "/sys/class/pwm/pwmchip0" 0 0 0).m_maxDegrees ≠ 0 ∧
      (ctor "/sys/class/pwm/pwmchip0" 0 0 0).m_minDegrees ≠ 0) := by
    simp [ctor]
  have hval := DegreesToPWM_minus59_7 _ hno
  have hx : 900 + (minus59_7 + 60) * (2100 - 900) / 120 < 903 := by
    norm_num [minus59_7]
  refine ⟨isBinary64_minus59_7, ?_, ?_, ?_, hval, hx, ?_⟩
  · norm_num [minus59_7, abs_lt]
  · norm_num [minus59_7]
  · norm_num [minus59_7]
  · rintro ⟨n, hn, -, -, hle, -⟩
    rw [hval] at hn
    have hn' : n = 903 := (Option.some.inj hn).symm
    subst hn'
    push_cast at hle
    linarith

/-- C1, amended: constructed without a clamp range, `DegreesToPWM(0) = 1500`,
`DegreesToPWM(60) = 2100` and `DegreesToPWM(-60) = 900`; for every `d` in `[-60, 60]` the
result is an integer `n` in `[900, 2100]`, the binary64 value of the expression truncated
toward zero, with `n <= x + 2^-40` and `x - 2^-40 < n + 1` for the exact image
`x = 900 + (d + 60) * (2100 - 900) / 120`. -/
theorem DegreesToPWM_nominal_within_tolerance (pwmPath : String) (pwmChannel : Int) :
    DegreesToPWM (ctor pwmPath pwmChannel 0 0) 0 = some 1500 ∧
    DegreesToPWM (ctor pwmPath pwmChannel 0 0) 60 = some 2100 ∧
    DegreesToPWM (ctor pwmPath pwmChannel 0 0) (-60) = some 900 ∧
    ∀ d : ℚ, -60 ≤ d → d ≤ 60 →
      ∃ n : Nat, DegreesToPWM (ctor pwmPath pwmChannel 0 0) d = some n ∧
        900 ≤ n ∧ n ≤ 2100 ∧
        (n : ℚ) ≤ 900 + (d + 60) * (2100 - 900) / 120 + 1 / 2 ^ 40 ∧
        900 + (d + 60) * (2100 - 900) / 120 - 1 / 2 ^ 40 < (n : ℚ) + 1 := by
  have hno : ¬ ((ctor pwmPath pwmChannel 0 0).m_maxDegrees ≠ 0 ∧
      (ctor pwmPath pwmChannel 0 0).m_minDegrees ≠ 0) := by
    simp [ctor]
  refine ⟨?_, ?_, ?_, ?_⟩
  · rw [DegreesToPWM_intCast _ 0 0 (by norm_num) (by rw [if_neg hno]; norm_num)]
    rfl
  · rw [DegreesToPWM_intCast _ 60 60 (by norm_num) (by rw [if_neg hno]; norm_num)]
    rfl
  · rw [DegreesToPWM_intCast _ (-60) (-60) (by norm_num) (by rw [if_neg hno]; norm_num)]
    rfl
  · intro d hlo hhi
    obtain ⟨y, hy0, hy1, herr, hval⟩ := DegreesToPWM_nominal _ hno d hlo hhi
    have hf0 : (900 : Int) ≤ ⌊y⌋ := Int.le_floor.mpr (by push_cast; exact hy0)
    have hf1 : ⌊y⌋ ≤ (2100 : Int) := by
      have := Int.floor_le_floor hy1
      simpa using this
    have hcast : ((⌊y⌋.toNat : Nat) : ℚ) = ((⌊y⌋ : Int) : ℚ) := by
      have : ((⌊y⌋.toNat : Nat) : Int) = ⌊y⌋ := Int.toNat_of_nonneg (by omega)
      exact_mod_cast this
    rw [abs_lt] at herr
    refine ⟨_, hval, by omega, by omega, ?_, ?_⟩
    · rw [hcast]
      have := Int.floor_le y
      linarith
    · rw [hcast]
      have := Int.lt_floor_add_one y
      linarith

/-- Witness of the amended C1 at the `double` -59.7, where the result is 903. -/
theorem DegreesToPWM_nominal_within_tolerance_witness :
    -60 ≤ minus59_7 ∧ minus59_7 ≤ 60 ∧
    (∃ n : Nat, DegreesToPWM (ctor "/sys/class/pwm/pwmchip0" 0 0 0) minus59_7 = some n ∧
      900 ≤ n ∧ n ≤ 2100 ∧
      (n : ℚ) ≤ 900 + (minus59_7 + 60) * (2100 - 900) / 120 + 1 / 2 ^ 40 ∧
      900 + (minus59_7 + 60) * (2100 - 900) / 120 - 1 / 2 ^ 40 < (n : ℚ) + 1) ∧
    DegreesToPWM (ctor "/sys/class/pwm/pwmchip0" 0 0 0) minus59_7 = some 903 :=
  ⟨by norm_num [minus59_7], by norm_num [minus59_7],
    (DegreesToPWM_nominal_within_tolerance "/sys/class/pwm/pwmchip0" 0).2.2.2 minus59_7
      (by norm_num [minus59_7]) (by norm_num [minus59_7]),
    DegreesToPWM_minus59_7 _ (by simp [ctor])⟩

/-- C2: with `min_degrees = -45` and `max_degrees = 45`, `DegreesToPWM(200)` equals
`DegreesToPWM(45)`; for all non-zero bounds with `min_degrees <= max_degrees` and every `d`,
`DegreesToPWM(d)` equals `DegreesToPWM` of `d` clamped into the range. -/
theorem DegreesToPWM_eq_on_clamped (pwmPath : String) (pwmChannel : Int) :
    DegreesToPWM (ctor pwmPath pwmChannel (-45) 45) 200 =
      DegreesToPWM (ctor pwmPath pwmChannel (-45) 45) 45 ∧
    ∀ pwmMinDegrees pwmMaxDegrees d : ℚ,
      pwmMinDegrees ≠ 0 → pwmMaxDegrees ≠ 0 → pwmMinDegrees ≤ pwmMaxDegrees →
      DegreesToPWM (ctor pwmPath pwmChannel pwmMinDegrees pwmMaxDegrees) d =
        DegreesToPWM (ctor pwmPath pwmChannel pwmMinDegrees pwmMaxDegrees)
          (if d < pwmMinDegrees then pwmMinDegrees
           else if pwmMaxDegrees < d then pwmMaxDegrees else d) := by
  have general : ∀ pwmMinDegrees pwmMaxDegrees d : ℚ,
      pwmMinDegrees ≠ 0 → pwmMaxDegrees ≠ 0 → pwmMinDegrees ≤ pwmMaxDegrees →
      DegreesToPWM (ctor pwmPath pwmChannel pwmMinDegrees pwmMaxDegrees) d =
        DegreesToPWM (ctor pwmPath pwmChannel pwmMinDegrees pwmMaxDegrees)
          (if d < pwmMinDegrees then pwmMinDegrees
           else if pwmMaxDegrees < d then pwmMaxDegrees else d) := by
    intro lo hi d hlo hhi hle
    have hb : (ctor pwmPath pwmChannel lo hi).m_maxDegrees ≠ 0 ∧
        (ctor pwmPath pwmChannel lo hi).m_minDegrees ≠ 0 := ⟨hhi, hlo⟩
    apply DegreesToPWM_congr
    rw [if_pos hb, if_pos hb]
    have := Constrain_clamp (ctor pwmPath pwmChannel lo hi) hle d
    simp only [ctor] at this ⊢
    rw [this]
  refine ⟨?_, general⟩
  have := general (-45) 45 200 (by norm_num) (by norm_num) (by norm_num)
  rw [this]
  norm_num

/-- Witness of C2 at the range `[-45, 45]` and 200 degrees, where both sides are 1950. -/
theorem DegreesToPWM_eq_on_clamped_witness :
    (-45 : ℚ) ≠ 0 ∧ (45 : ℚ) ≠ 0 ∧ (-45 : ℚ) ≤ 45 ∧
    DegreesToPWM (ctor "/sys/class/pwm/pwmchip0" 0 (-45) 45) 200 =
      DegreesToPWM (ctor "/sys/class/pwm/pwmchip0" 0 (-45) 45)
        (if (200 : ℚ) < -45 then -45 else if (45 : ℚ) < 200 then 45 else 200) ∧
    DegreesToPWM (ctor "/sys/class/pwm/pwmchip0" 0 (-45) 45) 200 = some 1950 :=
  ⟨by norm_num, by norm_num, by norm_num,
    (DegreesToPWM_eq_on_clamped "/sys/class/pwm/pwmchip0" 0).2 (-45) 45 200
      (by norm_num) (by norm_num) (by norm_num),
    by
      rw [DegreesToPWM_intCast _ 200 45 (by norm_num) (by norm_num [ctor, Constrain])]
      rfl⟩

/-- C10, as stated, fails: with `min_degrees = 0` and `max_degrees = 45` nothing is
clamped, `DegreesToPWM(200)` is 3500 and `DegreesToPWM(45)` is 1950. -/
theorem DegreesToPWM_zero_min_not_clamped :
    DegreesToPWM (ctor "/sys/class/pwm/pwmchip0" 0 0 45) 200 = some 3500 ∧
    DegreesToPWM (ctor "/sys/class/pwm/pwmchip0" 0 0 45) 45 = some 1950 ∧
    DegreesToPWM (ctor "/sys/class/pwm/pwmchip0" 0 0 45) 200 ≠
      DegreesToPWM (ctor "/sys/class/pwm/pwmchip0" 0 0 45) 45 := by
  have h1 : DegreesToPWM (ctor "/sys/class/pwm/pwmchip0" 0 0 45) 200 = some 3500 := by
    rw [DegreesToPWM_intCast _ 200 200 (by norm_num) (by norm_num [ctor])]
    rfl
  have h2 : DegreesToPWM (ctor "/sys/class/pwm/pwmchip0" 0 0 45) 45 = some 1950 := by
    rw [DegreesToPWM_intCast _ 45 45 (by norm_num) (by norm_num [ctor])]
    rfl
  refine ⟨h1, h2, ?_⟩
  rw [h1, h2]
  decide

/-- C10, amended: `DegreesToPWM` clamps exactly when both bounds are non-zero. With both
bounds non-zero and `min_degrees <= max_degrees` the result is that of an interface without
range on the clamped argument; when a bound is zero it is that of an interface without range
on the argument itself. -/
theorem DegreesToPWM_clamps_iff_both_nonzero (pwmPath : String) (pwmChannel : Int)
    (pwmMinDegrees pwmMaxDegrees d : ℚ) :
    (pwmMinDegrees ≠ 0 → pwmMaxDegrees ≠ 0 → pwmMinDegrees ≤ pwmMaxDegrees →
      DegreesToPWM (ctor pwmPath pwmChannel pwmMinDegrees pwmMaxDegrees) d =
        DegreesToPWM (ctor pwmPath pwmChannel 0 0)
          (if d < pwmMinDegrees then pwmMinDegrees
           else if pwmMaxDegrees < d then pwmMaxDegrees else d)) ∧
    (pwmMinDegrees = 0 ∨ pwmMaxDegrees = 0 →
      DegreesToPWM (ctor pwmPath pwmChannel pwmMinDegrees pwmMaxDegrees) d =
        DegreesToPWM (ctor pwmPath pwmChannel 0 0) d) := by
  have hno : ¬ ((ctor pwmPath pwmChannel 0 0).m_maxDegrees ≠ 0 ∧
      (ctor pwmPath pwmChannel 0 0).m_minDegrees ≠ 0) := by
    simp [ctor]
  constructor
  · intro hlo hhi hle
    have hb : (ctor pwmPath pwmChannel pwmMinDegrees pwmMaxDegrees).m_maxDegrees ≠ 0 ∧
        (ctor pwmPath pwmChannel pwmMinDegrees pwmMaxDegrees).m_minDegrees ≠ 0 := ⟨hhi, hlo⟩
    apply DegreesToPWM_congr
    rw [if_pos hb, if_neg hno]
    have := Constrain_eq_clamp (ctor pwmPath pwmChannel pwmMinDegrees pwmMaxDegrees) hle d
    simp only [ctor] at this ⊢
    rw [this]
  · intro hz
    have hb : ¬ ((ctor pwmPath pwmChannel pwmMinDegrees pwmMaxDegrees).m_maxDegrees ≠ 0 ∧
        (ctor pwmPath pwmChannel pwmMinDegrees pwmMaxDegrees).m_minDegrees ≠ 0) := by
      simp only [ctor]
      rcases hz with hz | hz <;> simp [hz]
    apply DegreesToPWM_congr
    rw [if_neg hb, if_neg hno]

/-- Witness of the amended C10: the range `[-45, 45]` clamps 200 to 45, the range
`[0, 45]` clamps nothing. -/
theorem DegreesToPWM_clamps_iff_both_nonzero_witness :
    ((-45 : ℚ) ≠ 0 ∧ (45 : ℚ) ≠ 0 ∧ (-45 : ℚ) ≤ 45 ∧
      DegreesToPWM (ctor "/sys/class/pwm/pwmchip0" 0 (-45) 45) 200 =
        DegreesToPWM (ctor "/sys/class/pwm/pwmchip0" 0 0 0)
          (if (200 : ℚ) < -45 then -45 else if (45 : ℚ) < 200 then 45 else 200)) ∧
    (((0 : ℚ) = 0 ∨ (45 : ℚ) = 0) ∧
      DegreesToPWM (ctor "/sys/class/pwm/pwmchip0" 0 0 45) 200 =
        DegreesToPWM (ctor "/sys/class/pwm/pwmchip0" 0 0 0) 200) :=
  ⟨⟨by norm_num, by norm_num, by norm_num,
      (DegreesToPWM_clamps_iff_both_nonzero "/sys/class/pwm/pwmchip0" 0 (-45) 45 200).1
        (by norm_num) (by norm_num) (by norm_num)⟩,
    ⟨Or.inl rfl,
      (DegreesToPWM_clamps_iff_both_nonzero "/sys/class/pwm/pwmchip0" 0 0 45 200).2
        (Or.inl rfl)⟩⟩

end DegreesClaims

/-! ## Claims on `GPIO_Interface` -/

section GpioClaims

open GPIO_Interface

/-- On a line whose path opens, `SetDirection` stops at its export gate. -/
theorem SetDirection_of_exported (g : GPIO_Interface) (fs : FileSystem) (direction : Direction)
    (h : IsExported g fs = true) (hd : direction ≠ Direction.Unknown) :
    SetDirection g fs direction = (Status.NotExported, fs) := by
  simp [SetDirection, h, hd]

/-- On a line whose path does not open, `SetDirection` writes the mapped string. -/
theorem SetDirection_of_not_exported (g : GPIO_Interface) (fs : FileSystem)
    (direction : Direction) (h : IsExported g fs = false) (hd : direction ≠ Direction.Unknown)
    (hw : fs.writable (g.m_gpioPath ++ "/direction") = true) :
    SetDirection g fs direction =
      (Status.Success, fs.close ⟨g.m_gpioPath ++ "/direction", directionMap direction⟩) := by
  simp [SetDirection, h, hd, FileSystem.openOut, hw, ofstream.put]

/-- Result of `ExportGPIO` when the export attribute opens for output: the attribute is
left empty. -/
theorem ExportGPIO_of_writable (g : GPIO_Interface) (fs : FileSystem)
    (hw : fs.writable (g.m_gpioPath ++ "/export") = true) :
    ExportGPIO g fs = (Status.Success, fs.close ⟨g.m_gpioPath ++ "/export", ""⟩) := by
  simp [ ExportGPIO, FileSystem.openOut, hw]

/-- The decimal text of a number is never empty. -/
theorem to_string_ne_empty (v : Int) : to_string v ≠ "" := by
  intro h
  have : (to_string v).data = [] := by rw [h]
  exact intToChars_ne_nil v this

/-- C3, evaluated on an exported line (its path opens, its direction attribute is writable
and reads "out"): `SetDirection(In)` returns `NotExported`, writes nothing, and
`GetDirection()` right after it still returns `Out`. -/
theorem SetDirection_exported_line_rejected :
    IsExported gpio17 fsGpioExported = true ∧
    fsGpioExported.writable "/sys/class/gpio/gpio17/direction" = true ∧
    SetDirection gpio17 fsGpioExported Direction.In = (Status.NotExported, fsGpioExported) ∧
    GetDirection gpio17 (SetDirection gpio17 fsGpioExported Direction.In).2 = Direction.Out ∧
    IsExported gpio17 fsGpioExported = true ∧
    (SetValue gpio17 fsGpioExported 0).1 = Status.Success :=
  ⟨rfl, rfl, SetDirection_of_exported _ _ _ rfl (by decide), rfl, rfl, rfl⟩

/-- C9, evaluated for pin 17 on a controller whose export and unexport attributes are
writable: `ExportGPIO` and `UnExportGPIO` return `Success`, open the attribute and put
nothing into it; afterwards it is empty, not the decimal text "17". -/
theorem ExportGPIO_writes_nothing :
    fsGpioController.writable "/sys/class/gpio/export" = true ∧
    ( ExportGPIO gpioPin17 fsGpioController).1 = Status.Success ∧
    ( ExportGPIO gpioPin17 fsGpioController).2.files "/sys/class/gpio/export" = some "" ∧
    ( ExportGPIO gpioPin17 fsGpioController).2.writes = [("/sys/class/gpio/export", "")] ∧
    ( UnExportGPIO gpioPin17 fsGpioController).1 = Status.Success ∧
    ( UnExportGPIO gpioPin17 fsGpioController).2.files "/sys/class/gpio/unexport" = some "" ∧
    ( UnExportGPIO gpioPin17 fsGpioController).2.writes = [("/sys/class/gpio/unexport", "")] ∧
    to_string gpioPin17.m_gpioPin = "17" ∧ "17" ≠ "" := by
  refine ⟨rfl, rfl, rfl, rfl, rfl, rfl, rfl, rfl, by decide⟩

end GpioClaims

/-! ## Claims on the attribute files of `PWM_Interface` -/

section PwmClaims

open PWM_Interface

theorem intToSizeT_of_nat (n : Nat) (h : (n : Int) ≤ INT_MAX) : intToSizeT (n : Int) = n := by
  unfold INT_MAX at h
  unfold intToSizeT
  rw [Int.emod_eq_of_lt (by omega) (by omega)]
  simp

/-- A file that was just written reads back what was put into it. -/
theorem files_close_same (fs : FileSystem) (path text : String) :
    (fs.close ⟨path, text⟩).files path = some text := by
  simp [FileSystem.close]

/-- Result of `SetPeriod` on a period attribute that opens for output. -/
theorem SetPeriod_of_writable (p : PWM_Interface) (fs : FileSystem) (period_ns : Nat)
    (hw : fs.writable (p.m_pwmPath ++ "/pwm" ++ to_string p.m_pwmChannel ++ "/period") = true) :
    SetPeriod p fs period_ns =
      (PWMStatus.Success,
        fs.close ⟨p.m_pwmPath ++ "/pwm" ++ to_string p.m_pwmChannel ++ "/period",
          to_string_size_t period_ns⟩) := by
  simp [SetPeriod, FileSystem.openOut, hw, ofstream.put]

/-- Result of `SetPeriod` followed by `GetPeriod`: the value comes back when it fits `int`;
above `INT_MAX` the call of `std::stoi` throws `out_of_range`. -/
theorem SetPeriod_GetPeriod (p : PWM_Interface) (fs : FileSystem) (period_ns old : Nat)
    (hw : fs.writable (p.m_pwmPath ++ "/pwm" ++ to_string p.m_pwmChannel ++ "/period") = true) :
    (SetPeriod p fs period_ns).1 = PWMStatus.Success ∧
    GetPeriod p (SetPeriod p fs period_ns).2 old =
      if (period_ns : Int) ≤ INT_MAX then Except.ok (PWMStatus.Success, period_ns)
      else Except.error Exception.out_of_range := by
  rw [SetPeriod_of_writable p fs period_ns hw]
  refine ⟨rfl, ?_⟩
  simp only [GetPeriod, FileSystem.openIn, files_close_same, getline_to_string_size_t,
    stoi_to_string_size_t]
  by_cases h : (period_ns : Int) ≤ INT_MAX
  · simp only [if_pos h, intToSizeT_of_nat period_ns h]
  · simp only [if_neg h]

/-- C4, evaluated at `period_ns = 2147483648` on a channel whose period attribute is
writable: `SetPeriod` returns `Success` and stores "2147483648"; the `GetPeriod` right
after it throws `std::out_of_range` out of `std::stoi`. One below, the value comes back. -/
theorem GetPeriod_throws_above_INT_MAX :
    fsPwmEnabled.writable "/sys/class/pwm/pwmchip0/pwm0/period" = true ∧
    (SetPeriod pwm0 fsPwmEnabled 2147483648).1 = PWMStatus.Success ∧
    (SetPeriod pwm0 fsPwmEnabled 2147483648).2.files "/sys/class/pwm/pwmchip0/pwm0/period" =
      some "2147483648" ∧
    GetPeriod pwm0 (SetPeriod pwm0 fsPwmEnabled 2147483648).2 0 =
      Except.error Exception.out_of_range ∧
    GetPeriod pwm0 (SetPeriod pwm0 fsPwmEnabled 2147483647).2 0 =
      Except.ok (PWMStatus.Success, 2147483647) :=
  ⟨rfl, rfl, rfl, rfl, rfl⟩

/-- Result of `DisablePWM` on a channel that is not reported as exported. -/
theorem DisablePWM_of_not_exported (p : PWM_Interface) (fs : FileSystem)
    (h : IsExported p fs ≠ PWMStatus.Success) :
    DisablePWM p fs = (PWMStatus.NotExported, fs) := by
  simp [DisablePWM, EnableDisablePWM, h]

/-- Result of `DisablePWM` on an exported channel: the enable attribute either receives "0" or
does not open. -/
theorem DisablePWM_of_exported (p : PWM_Interface) (fs : FileSystem)
    (h : IsExported p fs = PWMStatus.Success) :
    DisablePWM p fs =
      if fs.writable (p.m_pwmPath ++ "/pwm" ++ to_string p.m_pwmChannel ++ "/enable") = true
      then (PWMStatus.Success,
        fs.close ⟨p.m_pwmPath ++ "/pwm" ++ to_string p.m_pwmChannel ++ "/enable", "0"⟩)
      else (PWMStatus.Error, fs) := by
  have hb : to_string_bool false = "0" := by decide
  by_cases hw :
      fs.writable (p.m_pwmPath ++ "/pwm" ++ to_string p.m_pwmChannel ++ "/enable") = true
  · simp [DisablePWM, EnableDisablePWM, h, FileSystem.openOut, hw, ofstream.put, hb]
  · simp [DisablePWM, EnableDisablePWM, h, FileSystem.openOut, hw]

/-- C5, evaluated: `SetDirection(Unknown)` and `SetEdge(Unknown)` return `Error` and leave
every file system as it was. `SetPolarity(Unknown)` on an exported, enabled channel writes
"0" to the enable attribute before it returns `InvalidInput`; on a channel that is not
exported it returns `Error`. -/
theorem SetPolarity_Unknown_after_disable :
    (∀ (g : GPIO_Interface) (fs : FileSystem),
      GPIO_Interface.SetDirection g fs Direction.Unknown = (Status.Error, fs)) ∧
    (∀ (g : GPIO_Interface) (fs : FileSystem),
      GPIO_Interface.SetEdge g fs Edge.Unknown = (Status.Error, fs)) ∧
    fsPwmEnabled.files "/sys/class/pwm/pwmchip0/pwm0/enable" = some "1" ∧
    fsPwmEnabled.writes = [] ∧
    (SetPolarity pwm0 fsPwmEnabled PWMPolarity.Unknown).1 = PWMStatus.InvalidInput ∧
    (SetPolarity pwm0 fsPwmEnabled PWMPolarity.Unknown).2.files
      "/sys/class/pwm/pwmchip0/pwm0/enable" = some "0" ∧
    (SetPolarity pwm0 fsPwmEnabled PWMPolarity.Unknown).2.writes =
      [("/sys/class/pwm/pwmchip0/pwm0/enable", "0")] ∧
    SetPolarity pwm0 fsEmpty PWMPolarity.Unknown = (PWMStatus.Error, fsEmpty) := by
  refine ⟨?_, ?_, rfl, rfl, rfl, rfl, rfl, rfl⟩
  · intro g fs
    simp [GPIO_Interface.SetDirection]
  · intro g fs
    simp [GPIO_Interface.SetEdge]

/-- C6: for `polarity` in `Normal`, `Inverted`, `SetPolarity` starts with `DisablePWM()`.
When that returns `Success` it has written "0" to the enable attribute, and if the polarity
attribute opens, `SetPolarity` returns `Success` with the write of "normal" or "inverted"
to the polarity attribute recorded right after the write to enable. When `DisablePWM()` does
not return `Success`, `SetPolarity` returns `Error` and the file system is left as it was. -/
theorem SetPolarity_disables_then_writes (p : PWM_Interface) (fs : FileSystem)
    (polarity : PWMPolarity)
    (hp : polarity = PWMPolarity.Normal ∨ polarity = PWMPolarity.Inverted) :
    ((DisablePWM p fs).1 = PWMStatus.Success →
      (DisablePWM p fs).2.writes = fs.writes ++
        [(p.m_pwmPath ++ "/pwm" ++ to_string p.m_pwmChannel ++ "/enable", "0")] ∧
      (fs.writable (p.m_pwmPath ++ "/pwm" ++ to_string p.m_pwmChannel ++ "/polarity") = true →
        (SetPolarity p fs polarity).1 = PWMStatus.Success ∧
        (SetPolarity p fs polarity).2.writes = fs.writes ++
          [(p.m_pwmPath ++ "/pwm" ++ to_string p.m_pwmChannel ++ "/enable", "0"),
           (p.m_pwmPath ++ "/pwm" ++ to_string p.m_pwmChannel ++ "/polarity",
             if polarity = PWMPolarity.Normal then "normal" else "inverted")] ∧
        (SetPolarity p fs polarity).2.files
          (p.m_pwmPath ++ "/pwm" ++ to_string p.m_pwmChannel ++ "/polarity") =
          some (if polarity = PWMPolarity.Normal then "normal" else "inverted"))) ∧
    ((DisablePWM p fs).1 ≠ PWMStatus.Success →
      SetPolarity p fs polarity = (PWMStatus.Error, fs)) := by
  by_cases hex : IsExported p fs = PWMStatus.Success
  · rw [SetPolarity, DisablePWM_of_exported p fs hex]
    by_cases hw :
        fs.writable (p.m_pwmPath ++ "/pwm" ++ to_string p.m_pwmChannel ++ "/enable") = true
    · simp only [if_pos hw]
      refine ⟨fun _ => ⟨by simp [FileSystem.close], fun hpol => ?_⟩, fun h => absurd rfl h⟩
      have hpol2 : (fs.close
          ⟨p.m_pwmPath ++ "/pwm" ++ to_string p.m_pwmChannel ++ "/enable", "0"⟩).writable
          (p.m_pwmPath ++ "/pwm" ++ to_string p.m_pwmChannel ++ "/polarity") = true := hpol
      rcases hp with hp | hp <;> subst hp <;>
        simp [FileSystem.openOut, hpol2, ofstream.put] <;>
        simp [FileSystem.close]
    · simp only [if_neg hw]
      refine ⟨fun h => ?_, fun _ => ?_⟩
      · simp at h
      · simp
  · rw [SetPolarity, DisablePWM_of_not_exported p fs hex]
    refine ⟨fun h => ?_, fun _ => ?_⟩
    · simp at h
    · simp

/-- Witness of C6: on an exported channel with writable enable and polarity attributes the
two writes happen in order; on an empty tree `DisablePWM()` fails and nothing changes. -/
theorem SetPolarity_disables_then_writes_witness :
    ((DisablePWM pwm0 fsPwmEnabled).1 = PWMStatus.Success ∧
      fsPwmEnabled.writable "/sys/class/pwm/pwmchip0/pwm0/polarity" = true ∧
      (SetPolarity pwm0 fsPwmEnabled PWMPolarity.Inverted).1 = PWMStatus.Success ∧
      (SetPolarity pwm0 fsPwmEnabled PWMPolarity.Inverted).2.writes = fsPwmEnabled.writes ++
        [(pwm0.m_pwmPath ++ "/pwm" ++ to_string pwm0.m_pwmChannel ++ "/enable", "0"),
         (pwm0.m_pwmPath ++ "/pwm" ++ to_string pwm0.m_pwmChannel ++ "/polarity",
           if PWMPolarity.Inverted = PWMPolarity.Normal then "normal" else "inverted")]) ∧
    ((DisablePWM pwm0 fsEmpty).1 ≠ PWMStatus.Success ∧
      SetPolarity pwm0 fsEmpty PWMPolarity.Normal = (PWMStatus.Error, fsEmpty)) :=
  ⟨⟨rfl, rfl,
      (((SetPolarity_disables_then_writes pwm0 fsPwmEnabled PWMPolarity.Inverted
        (Or.inr rfl)).1 rfl).2 rfl).1,
      (((SetPolarity_disables_then_writes pwm0 fsPwmEnabled PWMPolarity.Inverted
        (Or.inr rfl)).1 rfl).2 rfl).2.1⟩,
    ⟨by decide,
      (SetPolarity_disables_then_writes pwm0 fsEmpty PWMPolarity.Normal (Or.inl rfl)).2
        (by decide)⟩⟩

/-- The export gate of the PWM class after the channel number was written to the export
attribute. -/
theorem IsExported_after_write (p : PWM_Interface) (fs : FileSystem) :
    IsExported p (fs.close ⟨p.m_pwmPath ++ "/export", to_string p.m_pwmChannel⟩) =
      PWMStatus.Success := by
  simp [IsExported, FileSystem.openIn, files_close_same, getline_to_string]

/-- Result of `ExportPWM` on a channel that is not reported as exported and whose export attribute
opens for output. -/
theorem ExportPWM_of_not_exported (p : PWM_Interface) (fs : FileSystem)
    (h : IsExported p fs ≠ PWMStatus.Success)
    (hw : fs.writable (p.m_pwmPath ++ "/export") = true) :
    ExportPWM p fs =
      (PWMStatus.Success, fs.close ⟨p.m_pwmPath ++ "/export", to_string p.m_pwmChannel⟩) := by
  simp [ExportPWM, h, FileSystem.openOut, hw, ofstream.put]

/-- C8: `ExportPWM` is idempotent. On a channel that `IsExported()` reports as exported it
returns `Success` and leaves the file system as it was; when the export attribute opens for
output, a first `ExportPWM` returns `Success` and a second one right after it returns
`Success` and leaves the file system, write record included, as the first one left it. -/
theorem ExportPWM_idempotent (p : PWM_Interface) (fs : FileSystem) :
    (IsExported p fs = PWMStatus.Success → ExportPWM p fs = (PWMStatus.Success, fs)) ∧
    (fs.writable (p.m_pwmPath ++ "/export") = true →
      (ExportPWM p fs).1 = PWMStatus.Success ∧
      ExportPWM p (ExportPWM p fs).2 = (PWMStatus.Success, (ExportPWM p fs).2)) := by
  have first : ∀ fs0 : FileSystem, IsExported p fs0 = PWMStatus.Success →
      ExportPWM p fs0 = (PWMStatus.Success, fs0) := by
    intro fs0 h
    simp [ExportPWM, h]
  refine ⟨first fs, fun hw => ?_⟩
  by_cases hex : IsExported p fs = PWMStatus.Success
  · rw [first fs hex]
    exact ⟨rfl, first fs hex⟩
  · rw [ExportPWM_of_not_exported p fs hex hw]
    exact ⟨rfl, first _ (IsExported_after_write p fs)⟩

/-- Witness of C8: on a controller with an empty, writable export attribute the first
`ExportPWM` writes "0" and the second one changes nothing. -/
theorem ExportPWM_idempotent_witness :
    fsPwmFresh.writable (pwm0.m_pwmPath ++ "/export") = true ∧
    (ExportPWM pwm0 fsPwmFresh).2.writes = [("/sys/class/pwm/pwmchip0/export", "0")] ∧
    (ExportPWM pwm0 fsPwmFresh).1 = PWMStatus.Success ∧
    ExportPWM pwm0 (ExportPWM pwm0 fsPwmFresh).2 =
      (PWMStatus.Success, (ExportPWM pwm0 fsPwmFresh).2) ∧
    IsExported pwm0 fsPwmEnabled = PWMStatus.Success ∧
    ExportPWM pwm0 fsPwmEnabled = (PWMStatus.Success, fsPwmEnabled) :=
  ⟨rfl, rfl, ((ExportPWM_idempotent pwm0 fsPwmFresh).2 rfl).1,
    ((ExportPWM_idempotent pwm0 fsPwmFresh).2 rfl).2, rfl,
    (ExportPWM_idempotent pwm0 fsPwmEnabled).1 rfl⟩

/-- C7, as stated, fails. With no file at all, `GetValue` and `SetValue` return
`NotExported`, not `Error`: the export gate comes first. In a directory where the missing
duty cycle file can be created, `SetDutyCycle` creates it and returns `Success`. -/
theorem missing_file_not_always_Error :
    fsEmpty.files "/sys/class/gpio/gpio17/value" = none ∧
    GPIO_Interface.GetValue gpio17 fsEmpty 0 = (Status.NotExported, 0) ∧
    GPIO_Interface.SetValue gpio17 fsEmpty 1 = (Status.NotExported, fsEmpty) ∧
    fsScratchDir.files "/sys/class/pwm/pwmchip0/pwm0/duty_cycle" = none ∧
    (SetDutyCycle pwm0 fsScratchDir 1500).1 = PWMStatus.Success ∧
    (SetDutyCycle pwm0 fsScratchDir 1500).2.files "/sys/class/pwm/pwmchip0/pwm0/duty_cycle" =
      some "1500" :=
  ⟨rfl, rfl, rfl, rfl, rfl, rfl⟩

/-- C7, amended: when the period attribute does not open for input, `GetPeriod` returns
`Error` without throwing and leaves its argument, and `GetPeriod()` returns the largest
`size_t`; when the duty cycle attribute does not open for output, `SetDutyCycle` returns
`Error` and writes nothing; when the value attribute does not open, `GetValue` and
`SetValue` return `Error` on a line whose path opens and `NotExported` on one whose path
does not, and change nothing. -/
theorem missing_attribute_results (p : PWM_Interface) (g : GPIO_Interface) (fs : FileSystem)
    (period_ns : Nat) (dutyCycle_ns value : Int) :
    (fs.files (p.m_pwmPath ++ "/pwm" ++ to_string p.m_pwmChannel ++ "/period") = none →
      GetPeriod p fs period_ns = Except.ok (PWMStatus.Error, period_ns) ∧
      GetPeriod0 p fs = Except.ok 18446744073709551615) ∧
    (fs.writable (p.m_pwmPath ++ "/pwm" ++ to_string p.m_pwmChannel ++ "/duty_cycle") = false →
      SetDutyCycle p fs dutyCycle_ns = (PWMStatus.Error, fs)) ∧
    (fs.files (g.m_gpioPath ++ "/value") = none →
      GPIO_Interface.GetValue g fs value =
        (if GPIO_Interface.IsExported g fs = true then Status.Error else Status.NotExported,
          value)) ∧
    (fs.writable (g.m_gpioPath ++ "/value") = false →
      GPIO_Interface.SetValue g fs value =
        (if GPIO_Interface.IsExported g fs = true then Status.Error else Status.NotExported,
          fs)) := by
  refine ⟨fun h => ⟨?_, ?_⟩, fun h => ?_, fun h => ?_, fun h => ?_⟩
  · simp [GetPeriod, FileSystem.openIn, h]
  · simp [GetPeriod0, GetPeriod, FileSystem.openIn, h, SIZE_MAX]
  · simp [SetDutyCycle, FileSystem.openOut, h]
  · by_cases hex : GPIO_Interface.IsExported g fs = true <;>
      simp [GPIO_Interface.GetValue, hex, FileSystem.openIn, h]
  · by_cases hex : GPIO_Interface.IsExported g fs = true <;>
      simp [GPIO_Interface.SetValue, hex, FileSystem.openOut, h]

/-- Witness of the amended C7: line 17 is exported and has no value attribute, and there
is no PWM attribute file; every call returns `Error`. -/
theorem missing_attribute_results_witness :
    (fsGpioLineOnly.files
        (pwm0.m_pwmPath ++ "/pwm" ++ to_string pwm0.m_pwmChannel ++ "/period") = none ∧
      GetPeriod pwm0 fsGpioLineOnly 7 = Except.ok (PWMStatus.Error, 7) ∧
      GetPeriod0 pwm0 fsGpioLineOnly = Except.ok 18446744073709551615) ∧
    (fsGpioLineOnly.writable
        (pwm0.m_pwmPath ++ "/pwm" ++ to_string pwm0.m_pwmChannel ++ "/duty_cycle") = false ∧
      SetDutyCycle pwm0 fsGpioLineOnly 1500 = (PWMStatus.Error, fsGpioLineOnly)) ∧
    (fsGpioLineOnly.files (gpio17.m_gpioPath ++ "/value") = none ∧
      GPIO_Interface.GetValue gpio17 fsGpioLineOnly 0 =
        (if GPIO_Interface.IsExported gpio17 fsGpioLineOnly = true then Status.Error
          else Status.NotExported, 0)) ∧
    (fsGpioLineOnly.writable (gpio17.m_gpioPath ++ "/value") = false ∧
      GPIO_Interface.SetValue gpio17 fsGpioLineOnly 0 =
        (if GPIO_Interface.IsExported gpio17 fsGpioLineOnly = true then Status.Error
          else Status.NotExported, fsGpioLineOnly)) ∧
    GPIO_Interface.IsExported gpio17 fsGpioLineOnly = true :=
  ⟨⟨rfl, (missing_attribute_results pwm0 gpio17 fsGpioLineOnly 7 1500 0).1 rfl⟩,
    ⟨rfl, (missing_attribute_results pwm0 gpio17 fsGpioLineOnly 7 1500 0).2.1 rfl⟩,
    ⟨rfl, (missing_attribute_results pwm0 gpio17 fsGpioLineOnly 7 1500 0).2.2.1 rfl⟩,
    ⟨rfl, (missing_attribute_results pwm0 gpio17 fsGpioLineOnly 7 1500 0).2.2.2 rfl⟩,
    rfl⟩

end PwmClaims
